import Mathlib

/-!
Verification of the incremental merge and refresh engine
(bronze / silver / gold lambda handlers).

The Python source is shallowly embedded:
* python dicts become insertion-ordered association lists (`Rec`), with
  assignment `d[k] = v` modelled by `upsertBy Prod.fst` (replace in place,
  else append) — exactly CPython dict semantics;
* the in-batch dedup dict of `merge_to_iceberg` and the Iceberg
  `MERGE INTO … WHEN MATCHED / NOT MATCHED` statement are both instances of
  the same ordered-upsert fold `mergeBy`;
* timestamps are integers (seconds); DynamoDB scalar values form `Scalar`;
* fallible python expressions (`float(..)`, `int(..)`, missing mandatory
  dict keys) return `Option`, `none` standing for a raised exception;
* external collaborators (S3, Athena, DynamoDB reference store) are
  explicit environments of outcomes supplied to the handler functions.
-/

namespace DynamoPipe

/-! ## Generic keyed upsert (python dict assignment / SQL MERGE row effect) -/

section Upsert

variable {κ : Type} {α : Type} [DecidableEq κ]

/-- Replace every element carrying the key of `x` by `x`, keeping its
position; if the key is absent append `x` at the end.  Python dict
assignment and one `MERGE` source row both have exactly this effect. -/
def upsertBy (key : α → κ) (t : List α) (x : α) : List α :=
  if ∃ y ∈ t, key y = key x then
    t.map (fun y => if key y = key x then x else y)
  else t ++ [x]

/-- Fold a sequence of upserts over an initial table: a python dict built by
repeated assignment, and `MERGE INTO t USING s` over source rows `xs`. -/
def mergeBy (key : α → κ) (t : List α) (xs : List α) : List α :=
  xs.foldl (upsertBy key) t

/-- First element carrying key `k` (python dict lookup / row of a key). -/
def lookupBy (key : α → κ) (t : List α) (k : κ) : Option α :=
  t.find? (fun y => decide (key y = k))

theorem mergeBy_nil (key : α → κ) (t : List α) : mergeBy key t [] = t := rfl

theorem mergeBy_cons (key : α → κ) (t : List α) (x : α) (xs : List α) :
    mergeBy key t (x :: xs) = mergeBy key (upsertBy key t x) xs := rfl

theorem mergeBy_append (key : α → κ) (t : List α) (xs ys : List α) :
    mergeBy key t (xs ++ ys) = mergeBy key (mergeBy key t xs) ys := by
  simp [mergeBy, List.foldl_append]

theorem upsertBy_of_mem {key : α → κ} {t : List α} {x : α}
    (h : ∃ y ∈ t, key y = key x) :
    upsertBy key t x = t.map (fun y => if key y = key x then x else y) := by
  simp [upsertBy, h]

theorem upsertBy_of_not_mem {key : α → κ} {t : List α} {x : α}
    (h : ¬ ∃ y ∈ t, key y = key x) :
    upsertBy key t x = t ++ [x] := by
  simp only [upsertBy, if_neg h]

theorem map_key_upsertBy_of_mem {key : α → κ} {t : List α} {x : α}
    (h : ∃ y ∈ t, key y = key x) :
    (upsertBy key t x).map key = t.map key := by
  rw [upsertBy_of_mem h, List.map_map]
  apply List.map_congr_left
  intro y _
  by_cases hk : key y = key x <;> simp [hk]

theorem map_key_upsertBy_of_not_mem {key : α → κ} {t : List α} {x : α}
    (h : ¬ ∃ y ∈ t, key y = key x) :
    (upsertBy key t x).map key = t.map key ++ [key x] := by
  rw [upsertBy_of_not_mem h]; simp

theorem mem_map_key_upsertBy {key : α → κ} {t : List α} {x : α} {k : κ}
    (h : k ∈ t.map key) : k ∈ (upsertBy key t x).map key := by
  by_cases hm : ∃ y ∈ t, key y = key x
  · rwa [map_key_upsertBy_of_mem hm]
  · rw [map_key_upsertBy_of_not_mem hm]; exact List.mem_append_left _ h

theorem self_mem_map_key_upsertBy (key : α → κ) (t : List α) (x : α) :
    key x ∈ (upsertBy key t x).map key := by
  by_cases hm : ∃ y ∈ t, key y = key x
  · rw [map_key_upsertBy_of_mem hm]
    obtain ⟨y, hy, hk⟩ := hm
    exact hk ▸ List.mem_map_of_mem key hy
  · rw [map_key_upsertBy_of_not_mem hm]; simp

theorem nodup_map_key_upsertBy {key : α → κ} {t : List α} {x : α}
    (h : (t.map key).Nodup) : ((upsertBy key t x).map key).Nodup := by
  by_cases hm : ∃ y ∈ t, key y = key x
  · rwa [map_key_upsertBy_of_mem hm]
  · rw [map_key_upsertBy_of_not_mem hm]
    refine List.Nodup.append h (List.nodup_singleton _) ?_
    intro a ha hb
    rcases List.mem_singleton.mp hb with rfl
    rcases List.mem_map.mp ha with ⟨y, hy, hk⟩
    exact hm ⟨y, hy, hk⟩

theorem mem_keys_mergeBy_mono {key : α → κ} {t : List α} {xs : List α} {k : κ}
    (h : k ∈ t.map key) : k ∈ (mergeBy key t xs).map key := by
  induction xs generalizing t with
  | nil => simpa [mergeBy] using h
  | cons x xs ih => exact ih (mem_map_key_upsertBy h)

theorem mem_keys_mergeBy_of_mem {key : α → κ} {t : List α} {xs : List α} {x : α}
    (h : x ∈ xs) : key x ∈ (mergeBy key t xs).map key := by
  induction xs generalizing t with
  | nil => cases h
  | cons y ys ih =>
    rcases List.mem_cons.mp h with rfl | h
    · rw [mergeBy_cons]
      exact mem_keys_mergeBy_mono (self_mem_map_key_upsertBy key t x)
    · rw [mergeBy_cons]
      exact ih h

theorem nodup_map_key_mergeBy {key : α → κ} {t : List α} {xs : List α}
    (h : (t.map key).Nodup) : ((mergeBy key t xs).map key).Nodup := by
  induction xs generalizing t with
  | nil => simpa [mergeBy] using h
  | cons x xs ih => exact ih (nodup_map_key_upsertBy h)

theorem map_key_mergeBy_of_subset {key : α → κ} {t : List α} {xs : List α}
    (h : ∀ x ∈ xs, key x ∈ t.map key) :
    (mergeBy key t xs).map key = t.map key := by
  induction xs generalizing t with
  | nil => rfl
  | cons x xs ih =>
    have hx : ∃ y ∈ t, key y = key x := by
      rcases List.mem_map.mp (h x (List.mem_cons_self x xs)) with ⟨y, hy, hk⟩
      exact ⟨y, hy, hk⟩
    rw [mergeBy_cons]
    rw [ih (fun z hz => by
      rw [map_key_upsertBy_of_mem hx]; exact h z (List.mem_cons_of_mem _ hz))]
    exact map_key_upsertBy_of_mem hx

theorem find_replace_same {key : α → κ} {t : List α} {x : α}
    (h : ∃ y ∈ t, key y = key x) :
    (t.map (fun y => if key y = key x then x else y)).find?
      (fun y => decide (key y = key x)) = some x := by
  induction t with
  | nil => simp at h
  | cons a t ih =>
    rw [List.map_cons]
    by_cases ha : key a = key x
    · rw [if_pos ha, List.find?_cons_of_pos _ (by simp)]
    · rw [if_neg ha, List.find?_cons_of_neg _ (by simpa using ha)]
      refine ih ?_
      rcases h with ⟨y, hy, hk⟩
      rcases List.mem_cons.mp hy with rfl | hy
      · exact absurd hk ha
      · exact ⟨y, hy, hk⟩

theorem find_replace_other {key : α → κ} {t : List α} {x : α} {k : κ}
    (h : k ≠ key x) :
    (t.map (fun y => if key y = key x then x else y)).find?
      (fun y => decide (key y = k)) = t.find? (fun y => decide (key y = k)) := by
  induction t with
  | nil => rfl
  | cons a t ih =>
    rw [List.map_cons]
    by_cases ha : key a = key x
    · have hak : ¬ key a = k := fun hc => h (hc ▸ ha.symm).symm
      have hxk : ¬ key x = k := fun hc => h hc.symm
      rw [if_pos ha, List.find?_cons_of_neg _ (by simpa using hxk),
        List.find?_cons_of_neg _ (by simpa using hak)]
      exact ih
    · rw [if_neg ha]
      by_cases hak : key a = k
      · rw [List.find?_cons_of_pos _ (by simpa using hak),
          List.find?_cons_of_pos _ (by simpa using hak)]
      · rw [List.find?_cons_of_neg _ (by simpa using hak),
          List.find?_cons_of_neg _ (by simpa using hak)]
        exact ih

theorem find_none_of_all_neg {t : List α} (p : α → Bool)
    (h : ∀ y ∈ t, ¬ p y = true) : t.find? p = none := by
  induction t with
  | nil => rfl
  | cons a t ih =>
    rw [List.find?_cons_of_neg _ (h a (List.mem_cons_self a t))]
    exact ih (fun y hy => h y (List.mem_cons_of_mem _ hy))

theorem lookupBy_upsertBy_same (key : α → κ) (t : List α) (x : α) :
    lookupBy key (upsertBy key t x) (key x) = some x := by
  by_cases hm : ∃ y ∈ t, key y = key x
  · rw [upsertBy_of_mem hm]
    exact find_replace_same hm
  · rw [upsertBy_of_not_mem hm]
    unfold lookupBy
    rw [List.find?_append, find_none_of_all_neg _ (fun y hy => by
      simpa using fun hc => hm ⟨y, hy, hc⟩)]
    simp [List.find?]

theorem lookupBy_upsertBy_other {key : α → κ} {t : List α} {x : α} {k : κ}
    (h : k ≠ key x) :
    lookupBy key (upsertBy key t x) k = lookupBy key t k := by
  by_cases hm : ∃ y ∈ t, key y = key x
  · rw [upsertBy_of_mem hm]
    exact find_replace_other h
  · rw [upsertBy_of_not_mem hm]
    unfold lookupBy
    rw [List.find?_append, find_none_of_all_neg (t := [x]) _ (fun y hy => by
      rcases List.mem_singleton.mp hy with rfl
      simpa using fun hc => h hc.symm)]
    simp

/-- The row found under key `k` after a merge: the last source row with that
key if the source mentions `k`, otherwise whatever the target held. -/
theorem lookupBy_mergeBy (key : α → κ) (t : List α) (xs : List α) (k : κ) :
    lookupBy key (mergeBy key t xs) k =
      match (xs.filter (fun x => decide (key x = k))).getLast? with
      | some w => some w
      | none => lookupBy key t k := by
  induction xs using List.reverseRecOn generalizing t with
  | nil => simp [mergeBy]
  | append_singleton ys y ih =>
    rw [mergeBy_append, List.filter_append]
    have hstep : mergeBy key (mergeBy key t ys) [y] = upsertBy key (mergeBy key t ys) y := rfl
    rw [hstep]
    by_cases hk : key y = k
    · subst hk
      rw [lookupBy_upsertBy_same key (mergeBy key t ys) y]
      have hfy : List.filter (fun x => decide (key x = key y)) [y] = [y] := by simp
      rw [hfy, List.getLast?_concat]
    · rw [lookupBy_upsertBy_other (fun hc => hk hc.symm), ih]
      have hfy : List.filter (fun x => decide (key x = k)) [y] = [] := by simp [hk]
      rw [hfy, List.append_nil]

theorem lookupBy_eq_none_iff (key : α → κ) (t : List α) (k : κ) :
    lookupBy key t k = none ↔ k ∉ t.map key := by
  simp only [lookupBy, List.find?_eq_none, List.mem_map, decide_eq_true_eq]
  constructor
  · rintro h ⟨y, hy, hk⟩; exact h y hy hk
  · rintro h y hy hk; exact h ⟨y, hy, hk⟩

/-- Two tables with the same (duplicate-free) key sequence and the same
lookups are equal. -/
theorem eq_of_keys_and_lookups {key : α → κ} {t u : List α}
    (hk : t.map key = u.map key) (hnd : (t.map key).Nodup)
    (hl : ∀ k, lookupBy key t k = lookupBy key u k) : t = u := by
  induction t generalizing u with
  | nil =>
    cases u with
    | nil => rfl
    | cons b u => simp at hk
  | cons a t ih =>
    cases u with
    | nil => simp at hk
    | cons b u =>
      simp only [List.map_cons, List.cons.injEq] at hk
      obtain ⟨hab, htu⟩ := hk
      have hha := hl (key a)
      unfold lookupBy at hha
      rw [List.find?_cons_of_pos _ (by simp),
        List.find?_cons_of_pos _ (by simpa using hab.symm)] at hha
      obtain rfl : a = b := by simpa using hha
      simp only [List.map_cons, List.nodup_cons] at hnd
      refine congrArg (a :: ·) (ih htu hnd.2 ?_)
      intro k
      by_cases hka : k = key a
      · subst hka
        rw [(lookupBy_eq_none_iff key t (key a)).mpr hnd.1,
          (lookupBy_eq_none_iff key u (key a)).mpr (htu ▸ hnd.1)]
      · have hk2 := hl k
        unfold lookupBy at hk2
        rw [List.find?_cons_of_neg _ (by simpa using fun hc : key a = k => hka hc.symm),
          List.find?_cons_of_neg _ (by simpa using fun hc : key a = k => hka hc.symm)] at hk2
        exact hk2

/-- Replaying the same source rows over the merge result changes nothing:
the keyed upsert fold is idempotent on duplicate-free targets. -/
theorem mergeBy_idem {key : α → κ} {t : List α} (xs : List α)
    (hnd : (t.map key).Nodup) :
    mergeBy key (mergeBy key t xs) xs = mergeBy key t xs := by
  have hsub : ∀ x ∈ xs, key x ∈ (mergeBy key t xs).map key :=
    fun x hx => mem_keys_mergeBy_of_mem hx
  refine eq_of_keys_and_lookups (map_key_mergeBy_of_subset hsub)
    (nodup_map_key_mergeBy (nodup_map_key_mergeBy hnd)) ?_
  intro k
  rw [lookupBy_mergeBy, lookupBy_mergeBy]
  cases hfl : (xs.filter (fun x => decide (key x = k))).getLast? with
  | some w => rfl
  | none => rfl

theorem mem_of_mem_upsertBy {key : α → κ} {t : List α} {x y : α}
    (h : y ∈ upsertBy key t x) : y ∈ t ∨ y = x := by
  by_cases hm : ∃ z ∈ t, key z = key x
  · rw [upsertBy_of_mem hm] at h
    rcases List.mem_map.mp h with ⟨z, hz, hzy⟩
    by_cases hk : key z = key x
    · right; rw [if_pos hk] at hzy; exact hzy.symm
    · left; rw [if_neg hk] at hzy; exact hzy ▸ hz
  · rw [upsertBy_of_not_mem hm] at h
    rcases List.mem_append.mp h with h | h
    · exact Or.inl h
    · exact Or.inr (List.mem_singleton.mp h)

theorem mem_of_mem_mergeBy {key : α → κ} {t : List α} {xs : List α} {y : α}
    (h : y ∈ mergeBy key t xs) : y ∈ t ∨ y ∈ xs := by
  induction xs generalizing t with
  | nil => exact Or.inl h
  | cons x xs ih =>
    rcases ih h with h | h
    · rcases mem_of_mem_upsertBy h with h | rfl
      · exact Or.inl h
      · exact Or.inr (List.mem_cons_self _ _)
    · exact Or.inr (List.mem_cons_of_mem _ h)

/-- A key-preserving element map commutes with the keyed upsert. -/
theorem map_upsertBy {key : α → κ} (f : α → α) (hf : ∀ a, key (f a) = key a)
    (t : List α) (x : α) :
    (upsertBy key t x).map f = upsertBy key (t.map f) (f x) := by
  have hmem : (∃ y ∈ t.map f, key y = key (f x)) ↔ (∃ y ∈ t, key y = key x) := by
    constructor
    · rintro ⟨y, hy, hk⟩
      rcases List.mem_map.mp hy with ⟨z, hz, rfl⟩
      exact ⟨z, hz, by rw [← hf z, hk, hf x]⟩
    · rintro ⟨y, hy, hk⟩
      exact ⟨f y, List.mem_map_of_mem f hy, by rw [hf y, hk, hf x]⟩
  by_cases hm : ∃ y ∈ t, key y = key x
  · rw [upsertBy_of_mem hm, upsertBy_of_mem (hmem.mpr hm), List.map_map, List.map_map]
    apply List.map_congr_left
    intro y _
    by_cases hk : key y = key x
    · simp [hk, hf]
    · have : ¬ key (f y) = key (f x) := by rw [hf, hf]; exact hk
      simp [hk, this]
  · rw [upsertBy_of_not_mem hm, upsertBy_of_not_mem (fun hc => hm (hmem.mp hc))]
    simp

theorem map_mergeBy {key : α → κ} (f : α → α) (hf : ∀ a, key (f a) = key a)
    (t : List α) (xs : List α) :
    (mergeBy key t xs).map f = mergeBy key (t.map f) (xs.map f) := by
  induction xs generalizing t with
  | nil => rfl
  | cons x xs ih => rw [mergeBy_cons, ih, map_upsertBy f hf, List.map_cons, mergeBy_cons]

end Upsert

/-! ## Scalar values and python dicts -/

/-- Raw payload of one element of a DynamoDB list attribute, as
`flatten_dynamodb_item` captures it (`list(item.values())[0]`). -/
inductive AttrElem where
  | s (v : String)
  | n (v : Rat)
  | b (v : Bool)
deriving DecidableEq, Repr

/-- A flattened python value stored in a record: string, float, bool,
flattened list payload, integer (result of `int(..)` in the silver
transform), or `None`. -/
inductive Scalar where
  | str (v : String)
  | num (v : Rat)
  | boolv (v : Bool)
  | intv (v : Int)
  | arr (elems : List AttrElem)
  | null
deriving DecidableEq, Repr

/-- A DynamoDB-typed attribute value from a stream image.  The numeric
payload is kept as the number `float(value)` yields; `other` covers
type tags the bronze flattener does not recognize. -/
inductive AttrVal where
  | S (v : String)
  | N (v : Rat)
  | BOOL (v : Bool)
  | L (elems : List AttrElem)
  | NULL
  | other
deriving DecidableEq, Repr

/-- A python dict with string keys: an insertion-ordered association list
with unique keys maintained by `upsertBy Prod.fst`. -/
abbrev Rec := List (String × Scalar)

/-- `d[k] = v` (CPython: overwrite in place, else append). -/
def Rec.set (r : Rec) (k : String) (v : Scalar) : Rec :=
  upsertBy Prod.fst r (k, v)

/-- `d.get(k)` — `none` models python `None`-less absence (KeyError on
mandatory access is modelled at the use sites). -/
def Rec.get (r : Rec) (k : String) : Option Scalar :=
  (lookupBy Prod.fst r k).map Prod.snd

/-- `d.get(k, dflt)`. -/
def Rec.getD (r : Rec) (k : String) (dflt : Scalar) : Scalar :=
  (Rec.get r k).getD dflt

/-- A dict literal / comprehension built by sequential insertion. -/
def Rec.ofList (l : List (String × Scalar)) : Rec :=
  l.foldl (fun r p => Rec.set r p.1 p.2) []

/-! ## Bronze layer (`src/lambda/bronze/handler.py`) -/

/-- `flatten_dynamodb_item`: convert a DynamoDB-typed image into a plain
dict.  An attribute whose type tag is unrecognized is silently skipped
(the python chain of `if/elif` has no final `else`). -/
def flatten_dynamodb_item (item : List (String × AttrVal)) : Rec :=
  item.foldl (fun result p =>
    match p.2 with
    | .S v => Rec.set result p.1 (.str v)
    | .N v => Rec.set result p.1 (.num v)
    | .BOOL v => Rec.set result p.1 (.boolv v)
    | .L es => Rec.set result p.1 (.arr es)
    | .NULL => Rec.set result p.1 .null
    | .other => result) []

/-- `str.split(sep)` over character lists (structural, so concrete
inputs evaluate). -/
def splitOnChar (sep : Char) : List Char → List (List Char)
  | [] => [[]]
  | c :: cs =>
    match splitOnChar sep cs with
    | [] => [[]]
    | g :: gs => if c = sep then [] :: g :: gs else (c :: g) :: gs

/-- `extract_table_name`: second `/`-separated component of the stream ARN
(`arn:aws:dynamodb:region:account:table/TableName/stream/...` — python
indexes `[1]`, which raises on a malformed ARN; ARNs are well formed). -/
def extract_table_name (arn : String) : String :=
  (((splitOnChar '/' arn.data)).map (fun cs => String.mk cs)).getD 1 ""

/-- One record of a DynamoDB Streams event, with the fields the bronze
handler reads.  `newImage = none` models a record without a `NewImage`. -/
structure StreamRecord where
  eventSourceARN : String
  eventName : String
  newImage : Option (List (String × AttrVal))
deriving DecidableEq, Repr

/-- The per-record body of the bronze handler loop: REMOVE events and
records without a new image are skipped (`continue`); otherwise the
flattened image is merged onto the three provenance fields. -/
def normalizeStreamRecord (nowIso : String) (r : StreamRecord) : Option Rec :=
  if r.eventName = "REMOVE" then none
  else
    match r.newImage with
    | none => none
    | some img =>
        some (Rec.ofList
          ([("_event_name", Scalar.str r.eventName),
            ("_event_timestamp", Scalar.str nowIso),
            ("_table_name", Scalar.str (extract_table_name r.eventSourceARN))]
            ++ flatten_dynamodb_item img))

/-- `record['_table_name']` on a normalized record (always a string set by
the normalizer; the fallback arm is unreachable on its outputs). -/
def tableNameOf (r : Rec) : String :=
  match Rec.get r "_table_name" with
  | some (.str s) => s
  | _ => ""

/-- `%02d` padding used in the bronze partition path. -/
def padTwo (n : Nat) : String :=
  if n < 10 then "0" ++ toString n else toString n

/-- The date/identity parts of the bronze write: `datetime.utcnow()`
broken into the pieces the key template interpolates, plus the uuid
fragment.  `keyRoot` is the `S3_PREFIX` env value (default `bronze`). -/
structure BronzeEnv where
  keyRoot : String
  year : Nat
  month : Nat
  day : Nat
  stamp : String
  batchId : String
deriving DecidableEq, Repr

/-- The object key of the single bronze batch write:
`{S3_PREFIX}/{table_name}/year=…/month=…/day=…/{stamp}_{batchId}.parquet`. -/
def bronzeKeyFor (env : BronzeEnv) (tableName : String) : String :=
  env.keyRoot ++ "/" ++ tableName ++ "/year=" ++ toString env.year ++
    "/month=" ++ padTwo env.month ++ "/day=" ++ padTwo env.day ++ "/" ++
    env.stamp ++ "_" ++ env.batchId ++ ".parquet"

/-- `lambda_handler` of the bronze layer, projected to its S3 effect: the
list of `put_object` calls it performs, each carrying the object key and
the records written into the parquet body. -/
def bronzeHandler (nowIso : String) (env : BronzeEnv) (events : List StreamRecord) :
    List (String × List Rec) :=
  let records := events.filterMap (normalizeStreamRecord nowIso)
  match records with
  | [] => []
  | r0 :: _ => [(bronzeKeyFor env (tableNameOf r0), records)]

/-! ## Silver layer (`src/lambda/silver/handler.py`) -/

/-- State of the stored watermark object `silver/watermark.json`:
absent (`NoSuchKey`), unreadable/corrupt (any other exception while
reading or parsing it), or a valid stored timestamp. -/
inductive WStore where
  | missing
  | corrupt
  | valid (lastProcessed : Int)
deriving DecidableEq, Repr

/-- `get_watermark` — timestamps in seconds, so 24 h = 86400 s and
1 h = 3600 s.  Every branch returns; no exception reaches the caller. -/
def get_watermark (now : Int) (st : WStore) : Int :=
  match st with
  | .missing => now - 86400
  | .corrupt => now - 3600
  | .valid t => t

/-- `save_watermark`: overwrite the stored watermark object. -/
def save_watermark (t : Int) : WStore := .valid t

/-- Metadata of one listed S3 object. -/
structure S3ObjMeta where
  key : String
  lastModified : Int
deriving DecidableEq, Repr

/-- Everything external the silver run touches: the three bronze table
names (env vars), the S3 listings per bronze prefix, object fetches
(`none` = the read failed and the file is skipped with a warning), the
reference customer store, and the Athena outcomes of each table merge. -/
structure MergeEnv where
  putRes : Except String Unit
  createTempRes : Except String Unit
  ensureRes : Except String Unit
  mergeRes : Except String Unit
  dropRes : Except String Unit
  deleteRes : Except String Unit

structure SilverEnv where
  ordersTable : String
  productsTable : String
  customersTable : String
  listing : String → List S3ObjMeta
  fetch : String → Option (List Rec)
  customers : List (Scalar × Rec)
  mergeEnvOf : String → MergeEnv

/-- `BRONZE_TABLES = [ORDERS_TABLE, PRODUCTS_TABLE, CUSTOMERS_TABLE]`. -/
def bronzeTables (env : SilverEnv) : List String :=
  [env.ordersTable, env.productsTable, env.customersTable]

/-- `scan_bronze_files`: keys of objects under each bronze prefix that end
in `.parquet` and were modified strictly after the watermark. -/
def scan_bronze_files (env : SilverEnv) (since : Int) : List String :=
  (bronzeTables env).flatMap (fun t =>
    ((env.listing t).filter
      (fun o => o.key.endsWith ".parquet" && decide (o.lastModified > since))).map
      (fun o => o.key))

/-- `read_bronze_files`: concatenate the records of each file; a file that
fails to load contributes nothing (logged and skipped). -/
def read_bronze_files (env : SilverEnv) (keys : List String) : List Rec :=
  keys.flatMap (fun k => (env.fetch k).getD [])

/-- `float(..)` on a stored scalar.  Bronze flattening emits all numbers
as `num`, so the claims never exercise the string case; python would
additionally parse numeric strings, which this model conservatively
treats as the failure any other string is. -/
def pyFloat : Scalar → Option Rat
  | .num v => some v
  | .intv v => some (v : Rat)
  | .boolv b => some (if b then 1 else 0)
  | _ => none

/-- Truncation toward zero, as python `int(float)` does. -/
def ratTrunc (q : Rat) : Int :=
  if 0 ≤ q then q.floor else -((-q).floor)

/-- `int(..)` on a stored scalar (same string caveat as `pyFloat`). -/
def pyInt : Scalar → Option Int
  | .num v => some (ratTrunc v)
  | .intv v => some v
  | .boolv b => some (if b then 1 else 0)
  | _ => none

/-- Python truthiness of `order.get('CustomerID')`. -/
def scalarFalsy : Option Scalar → Bool
  | none => true
  | some (.str v) => decide (v = "")
  | some (.num v) => decide (v = 0)
  | some (.intv v) => decide (v = 0)
  | some (.boolv b) => !b
  | some (.arr es) => es.isEmpty
  | some .null => true

/-- Point lookup in the reference customer table by `CustomerID`. -/
def custLookup (store : List (Scalar × Rec)) (k : Scalar) : Option Rec :=
  (lookupBy Prod.fst store k).map Prod.snd

/-- `enrich_order_data`: on a truthy `CustomerID`, look the customer up
and copy `Name`/`Region` onto the order; a lookup miss (no `Item` in the
response) and a lookup exception both leave the order unchanged. -/
def enrich_order_data (store : List (Scalar × Rec)) (order : Rec) : Rec :=
  let cid := Rec.get order "CustomerID"
  if scalarFalsy cid then order
  else
    match custLookup store (cid.getD .null) with
    | some customer =>
        Rec.set (Rec.set order "customer_name" (Rec.getD customer "Name" (.str "")))
          "customer_region" (Rec.getD customer "Region" (.str ""))
    | none => order

/-- `o.getD .null` stands for python returning `None` on `.get` miss. -/
def optS (o : Option Scalar) : Scalar := o.getD .null

/-- The silver order dict literal (its keys are distinct, so the dict is
the plain list). -/
def orderRow (e : Rec) (ev : Scalar) (amt : Rat) (nowIso : String) : Rec :=
  [("orderid", optS (Rec.get e "OrderID")),
   ("customerid", optS (Rec.get e "CustomerID")),
   ("orderdate", optS (Rec.get e "OrderDate")),
   ("totalamount", .num amt),
   ("customer_name", Rec.getD e "customer_name" (.str "")),
   ("customer_region", Rec.getD e "customer_region" (.str "")),
   ("event_timestamp", ev),
   ("processing_timestamp", .str nowIso)]

def mkOrderRow (store : List (Scalar × Rec)) (nowIso : String) (ev : Scalar)
    (r : Rec) : Option Rec :=
  (pyFloat (Rec.getD (enrich_order_data store r) "TotalAmount" (.num 0))).map
    (fun amt => orderRow (enrich_order_data store r) ev amt nowIso)

def productRow (r : Rec) (ev : Scalar) (price : Rat) (stock : Int)
    (nowIso : String) : Rec :=
  [("productid", optS (Rec.get r "ProductID")),
   ("name", optS (Rec.get r "Name")),
   ("price", .num price),
   ("stocklevel", .intv stock),
   ("event_timestamp", ev),
   ("processing_timestamp", .str nowIso)]

def mkProductRow (nowIso : String) (ev : Scalar) (r : Rec) : Option Rec :=
  (pyFloat (Rec.getD r "Price" (.num 0))).bind (fun price =>
    (pyInt (Rec.getD r "StockLevel" (.num 0))).map (fun stock =>
      productRow r ev price stock nowIso))

def customerRow (r : Rec) (ev : Scalar) (nowIso : String) : Rec :=
  [("customerid", optS (Rec.get r "CustomerID")),
   ("name", optS (Rec.get r "Name")),
   ("region", optS (Rec.get r "Region")),
   ("event_timestamp", ev),
   ("processing_timestamp", .str nowIso)]

/-- Does the text start with the pattern? -/
def leadsWith : List Char → List Char → Bool
  | [], _ => true
  | _ :: _, [] => false
  | p :: ps, c :: cs => decide (p = c) && leadsWith ps cs

/-- Does the pattern occur anywhere in the text? -/
def containsSeq (pat : List Char) : List Char → Bool
  | [] => pat.isEmpty
  | c :: cs => leadsWith pat (c :: cs) || containsSeq pat cs

/-- `'pat' in s` for python strings. -/
def strContains (s pat : String) : Bool :=
  containsSeq pat.data s.data

/-- `s.lower()` (structural over the character data, so concrete inputs
evaluate). -/
def pyLower (s : String) : String :=
  String.mk (s.data.map Char.toLower)

structure SilverData where
  orders : List Rec
  products : List Rec
  customers : List Rec
deriving DecidableEq, Repr

/-- The `if/elif` substring dispatch of the `transform_records` loop
body, once the two mandatory meta fields are in hand.  `none` from a row
builder is a raised coercion error aborting the whole run. -/
def transformClassify (store : List (Scalar × Rec)) (nowIso : String)
    (acc : SilverData) (r : Rec) (tbl : String) (ev : Scalar) :
    Option SilverData :=
  if strContains (pyLower tbl) "orders" then
    (mkOrderRow store nowIso ev r).map
      (fun o => { acc with orders := acc.orders ++ [o] })
  else if strContains (pyLower tbl) "products" then
    (mkProductRow nowIso ev r).map
      (fun p => { acc with products := acc.products ++ [p] })
  else if strContains (pyLower tbl) "customers" then
    some { acc with customers := acc.customers ++ [customerRow r ev nowIso] }
  else some acc

/-- One iteration of the `transform_records` loop.  The two mandatory
subscripts `record['_table_name']` / `record['_event_timestamp']` raise
(`none`) when absent, and `.lower()` requires the table name to be a
string. -/
def transformStep (store : List (Scalar × Rec)) (nowIso : String)
    (acc : SilverData) (r : Rec) : Option SilverData :=
  match Rec.get r "_table_name", Rec.get r "_event_timestamp" with
  | some (.str tbl), some ev => transformClassify store nowIso acc r tbl ev
  | _, _ => none

/-- `transform_records`. -/
def transform_records (store : List (Scalar × Rec)) (nowIso : String)
    (bronzeRecords : List Rec) : Option SilverData :=
  bronzeRecords.foldlM (transformStep store nowIso) ⟨[], [], []⟩

/-- `PRIMARY_KEYS`. -/
def PRIMARY_KEYS : List (String × String) :=
  [("orders", "orderid"), ("products", "productid"), ("customers", "customerid")]

def pkOf (tname : String) : Option String :=
  (lookupBy Prod.fst PRIMARY_KEYS tname).map Prod.snd

/-- `record[pk]` as dedup key (the pk column is always present on
transformed rows; its value may be `null`). -/
def keyfn (pk : String) (r : Rec) : Option Scalar := Rec.get r pk

/-- Step 1 of `merge_to_iceberg`: the batch dedup dict
`seen[record[pk]] = record` followed by `list(seen.values())`. -/
def dedupRecords (pk : String) (records : List Rec) : List Rec :=
  (mergeBy Prod.fst [] (records.map (fun r => (keyfn pk r, r)))).map Prod.snd

/-- The row effect of `MERGE INTO target USING staged ON pk`: each staged
row updates every column of the matching target row, or is inserted when
no target row matches. -/
def applyMergeData (pk : String) (target : List Rec) (records : List Rec) :
    List Rec :=
  mergeBy (keyfn pk) target (dedupRecords pk records)

/-- External effects attempted by `merge_to_iceberg`, in order. -/
inductive MAct where
  | putStaging (data : List Rec)
  | createTemp
  | ensureTable
  | mergeExec
  | dropTemp
  | deleteStaging
deriving DecidableEq, Repr

/-- The `try:` body of `merge_to_iceberg`: dedup, stage to S3, create the
temp external table, ensure the Iceberg table, run the MERGE; the first
failing step raises, skipping the rest.  An unknown table name raises
`KeyError` at the `PRIMARY_KEYS[table_name]` subscript before any
external effect. -/
def mergeBodySteps (env : MergeEnv) (tname : String) (records : List Rec) :
    Except String Unit × List MAct :=
  match pkOf tname with
  | none => (.error "KeyError", [])
  | some pk =>
    let deduped := dedupRecords pk records
    match env.putRes with
    | .error e => (.error e, [.putStaging deduped])
    | .ok _ =>
      match env.createTempRes with
      | .error e => (.error e, [.putStaging deduped, .createTemp])
      | .ok _ =>
        match env.ensureRes with
        | .error e => (.error e, [.putStaging deduped, .createTemp, .ensureTable])
        | .ok _ =>
          match env.mergeRes with
          | .error e =>
              (.error e, [.putStaging deduped, .createTemp, .ensureTable, .mergeExec])
          | .ok _ =>
              (.ok (), [.putStaging deduped, .createTemp, .ensureTable, .mergeExec])

/-- `merge_to_iceberg`: the body runs under `try:`, and the `finally:`
block always attempts `DROP TABLE IF EXISTS temp` and the staging-object
delete, each inside its own `try/except Exception: pass`, so cleanup
outcomes (`dropRes`, `deleteRes`) never alter the returned result. -/
def merge_to_iceberg (env : MergeEnv) (tname : String) (records : List Rec) :
    Except String Unit × List MAct :=
  let body := mergeBodySteps env tname records
  (body.1, body.2 ++ [MAct.dropTemp, MAct.deleteStaging])

/-- The merge loop of step 5 of the handler: empty record lists are
skipped (`continue`); the first merge failure propagates and aborts the
loop.  Returns the outcome and the merges actually invoked. -/
def runMerges (mergeEnvOf : String → MergeEnv) :
    List (String × List Rec) → Except String Unit × List (String × List Rec)
  | [] => (.ok (), [])
  | (tname, records) :: rest =>
    if records.isEmpty then runMerges mergeEnvOf rest
    else
      match (merge_to_iceberg (mergeEnvOf tname) tname records).1 with
      | .error e => (.error e, [(tname, records)])
      | .ok _ =>
        let out := runMerges mergeEnvOf rest
        (out.1, (tname, records) :: out.2)

inductive RunRes where
  | ok (body : String)
  | err (msg : String)
deriving DecidableEq, Repr

def RunRes.succeeded : RunRes → Bool
  | .ok _ => true
  | .err _ => false

/-- `silver_data.items()` in dict-literal insertion order. -/
def silverItems (d : SilverData) : List (String × List Rec) :=
  [("orders", d.orders), ("products", d.products), ("customers", d.customers)]

/-- The silver `lambda_handler`: watermark bracket around scan → read →
transform → merge.  Returns the handler result, the watermark store
after the run, and the merge invocations performed.  `now` is the run
start (`datetime.utcnow()`), `nowIso` its iso string used for
`processing_timestamp` stamps. -/
def silverHandler (now : Int) (nowIso : String) (st : WStore) (env : SilverEnv) :
    RunRes × WStore × List (String × List Rec) :=
  let watermark := get_watermark now st
  let newFiles := scan_bronze_files env watermark
  if newFiles.isEmpty then (.ok "No new files", save_watermark now, [])
  else
    let bronzeRecords := read_bronze_files env newFiles
    if bronzeRecords.isEmpty then (.ok "No records in files", save_watermark now, [])
    else
      match transform_records env.customers nowIso bronzeRecords with
      | none => (.err "transform raised", st, [])
      | some silverData =>
        match runMerges env.mergeEnvOf (silverItems silverData) with
        | (.ok _, tr) => (.ok "processed", save_watermark now, tr)
        | (.error e, tr) => (.err e, st, tr)

/-! ## Gold layer (`src/lambda/gold/handler.py`), daily-sales delta refresh

The SQL statements run by an external query facility; their set semantics
is embedded here over parsed rows: `orderdate_day` stands for
`CAST(date_parse(orderdate, …) AS DATE)` as a day number, `CURRENT_DATE`
is `today`. -/

/-- A row of `orders_enriched` as the gold aggregation reads it. -/
structure SilverOrderRow where
  orderdate_day : Int
  customerid : String
  customer_region : Option String
  totalamount : Rat
deriving DecidableEq, Repr

/-- A row of `daily_sales_by_region`. -/
structure AggRow where
  order_date : Int
  region : String
  order_count : Int
  total_revenue : Rat
  avg_order_value : Rat
  unique_customers : Int
  computed_at : String
deriving DecidableEq, Repr

/-- Distinct values in first-seen order (SQL `GROUP BY` keys /
`COUNT(DISTINCT …)`). -/
def distinctLeft {β : Type} [DecidableEq β] (l : List β) : List β :=
  l.foldl (fun acc x => if x ∈ acc then acc else acc ++ [x]) []

/-- One aggregate row of the `INSERT … SELECT … GROUP BY` for the group
key `(order_date, region)`. -/
def aggRowFor (rowsOfSrc : List SilverOrderRow) (nowTs : String)
    (k : Int × String) : AggRow :=
  let rows := rowsOfSrc.filter (fun o =>
    decide (o.orderdate_day = k.1) && decide (o.customer_region.getD "" = k.2))
  let cnt : Int := rows.length
  { order_date := k.1
    region := k.2
    order_count := cnt
    total_revenue := (rows.map (fun o => o.totalamount)).sum
    avg_order_value := (rows.map (fun o => o.totalamount)).sum / (cnt : Rat)
    unique_customers := (distinctLeft (rows.map (fun o => o.customerid))).length
    computed_at := nowTs }

/-- Step 2 of the delta refresh: recompute aggregates from
`orders_enriched` restricted to
`orderdate_day >= today - refreshDays AND customer_region IS NOT NULL`,
grouped by `(order_date, region)`. -/
def computeDailyAgg (today refreshDays : Int) (silver : List SilverOrderRow)
    (nowTs : String) : List AggRow :=
  let inWindow := silver.filter (fun o =>
    decide (o.orderdate_day ≥ today - refreshDays) && o.customer_region.isSome)
  (distinctLeft (inWindow.map (fun o => (o.orderdate_day, o.customer_region.getD "")))).map
    (aggRowFor inWindow nowTs)

/-- `refresh_daily_sales_by_region`:
`DELETE FROM daily_sales_by_region WHERE order_date >= CURRENT_DATE - INTERVAL refreshDays DAY`
followed by the recomputing insert over the same predicate. -/
def refresh_daily_sales_by_region (today refreshDays : Int)
    (silver : List SilverOrderRow) (tbl : List AggRow) (nowTs : String) :
    List AggRow :=
  let afterDelete := tbl.filter (fun r => !(decide (r.order_date ≥ today - refreshDays)))
  afterDelete ++ computeDailyAgg today refreshDays silver nowTs

/-! ## The silver pipeline as a table transformer (for idempotence) -/

/-- Erase the run-dependent `processing_timestamp` stamp of a silver row
("up to processingTime" comparisons). -/
def stripRec (r : Rec) : Rec := Rec.set r "processing_timestamp" (.str "")

/-- The three silver Iceberg target tables. -/
structure Targets where
  orders : List Rec
  products : List Rec
  customers : List Rec
deriving DecidableEq, Repr

/-- One stage-transform-merge pass of the silver run over a fixed bronze
record window and reference snapshot, as it affects the target tables: a
raised transform coercion aborts the run before any merge (tables
unchanged); otherwise each entity table receives the MERGE of its
deduplicated transformed rows.  (The handler loop skips entity types
with no rows; merging an empty staged set is the identity, so the skip
does not change the table state.) -/
def silverPipeline (store : List (Scalar × Rec)) (nowIso : String)
    (bronzeRecords : List Rec) (T : Targets) : Targets :=
  match transform_records store nowIso bronzeRecords with
  | none => T
  | some d =>
      { orders := applyMergeData "orderid" T.orders d.orders
        products := applyMergeData "productid" T.products d.products
        customers := applyMergeData "customerid" T.customers d.customers }

def stripData (d : SilverData) : SilverData :=
  ⟨d.orders.map stripRec, d.products.map stripRec, d.customers.map stripRec⟩

def stripTargets (T : Targets) : Targets :=
  ⟨T.orders.map stripRec, T.products.map stripRec, T.customers.map stripRec⟩

/-! ## Concrete witness data -/

/-- Reference customer store holding only customer `C9`. -/
def c8Store : List (Scalar × Rec) :=
  [(.str "C9", [("CustomerID", .str "C9"), ("Name", .str "Ada"),
    ("Region", .str "EU-North")])]

/-- A bronze order record whose `CustomerID` is absent from `c8Store`. -/
def c8Order : Rec :=
  [("_event_name", .str "INSERT"), ("_event_timestamp", .str "E1"),
   ("_table_name", .str "OrdersTable"), ("OrderID", .str "O1"),
   ("CustomerID", .str "C1"), ("TotalAmount", .num 5)]

/-- The silver row the transform produces for `c8Order` on lookup miss. -/
def c8Row : Rec :=
  [("orderid", .str "O1"), ("customerid", .str "C1"), ("orderdate", .null),
   ("totalamount", .num 5), ("customer_name", .str ""),
   ("customer_region", .str ""), ("event_timestamp", .str "E1"),
   ("processing_timestamp", .str "T0")]

def bronzeEnvW : BronzeEnv :=
  { keyRoot := "bronze", year := 2026, month := 10, day := 12,
    stamp := "20261012000000", batchId := "abcd1234" }

def bronzeEv1 : StreamRecord :=
  { eventSourceARN := "arn:aws:dynamodb:us-east-1:123:table/OrdersTable/stream/1",
    eventName := "INSERT", newImage := some [("OrderID", .S "O1")] }

def bronzeEv2 : StreamRecord :=
  { eventSourceARN := "arn:aws:dynamodb:us-east-1:123:table/ProductsTable/stream/1",
    eventName := "MODIFY", newImage := some [("ProductID", .S "P1")] }

def bronzeRec1 : Rec :=
  [("_event_name", .str "INSERT"), ("_event_timestamp", .str "T0"),
   ("_table_name", .str "OrdersTable"), ("OrderID", .str "O1")]

def bronzeRec2 : Rec :=
  [("_event_name", .str "MODIFY"), ("_event_timestamp", .str "T0"),
   ("_table_name", .str "ProductsTable"), ("ProductID", .str "P1")]

def silverEnvEmptyW : SilverEnv :=
  { ordersTable := "OrdersTable", productsTable := "ProductsTable",
    customersTable := "CustomersTable", listing := fun _ => [],
    fetch := fun _ => none, customers := [],
    mergeEnvOf := fun _ =>
      { putRes := .ok (), createTempRes := .ok (), ensureRes := .ok (),
        mergeRes := .ok (), dropRes := .ok (), deleteRes := .ok () } }

/-! ## Helper lemmas -/

theorem mem_foldl_distinct {β : Type} [DecidableEq β] (l : List β) (acc : List β)
    (y : β) :
    (y ∈ l.foldl (fun acc x => if x ∈ acc then acc else acc ++ [x]) acc) ↔
      y ∈ acc ∨ y ∈ l := by
  induction l generalizing acc with
  | nil => simp
  | cons x l ih =>
    rw [List.foldl_cons, ih]
    by_cases hx : x ∈ acc
    · rw [if_pos hx]
      constructor
      · rintro (h | h)
        · exact Or.inl h
        · exact Or.inr (List.mem_cons_of_mem _ h)
      · rintro (h | h)
        · exact Or.inl h
        · rcases List.mem_cons.mp h with rfl | h
          · exact Or.inl hx
          · exact Or.inr h
    · rw [if_neg hx]
      constructor
      · rintro (h | h)
        · rcases List.mem_append.mp h with h | h
          · exact Or.inl h
          · exact Or.inr (List.mem_cons.mpr (Or.inl (List.mem_singleton.mp h)))
        · exact Or.inr (List.mem_cons_of_mem _ h)
      · rintro (h | h)
        · exact Or.inl (List.mem_append_left _ h)
        · rcases List.mem_cons.mp h with rfl | h
          · exact Or.inl (List.mem_append_right _ (List.mem_singleton.mpr rfl))
          · exact Or.inr h

theorem mem_distinctLeft {β : Type} [DecidableEq β] {l : List β} {y : β} :
    y ∈ distinctLeft l ↔ y ∈ l := by
  rw [distinctLeft, mem_foldl_distinct]
  simp

theorem rec_get_set_self (r : Rec) (k : String) (v : Scalar) :
    Rec.get (Rec.set r k v) k = some v := by
  unfold Rec.get Rec.set
  rw [show k = Prod.fst (k, v) from rfl, lookupBy_upsertBy_same]
  rfl

theorem rec_get_set_ne (r : Rec) (k : String) (v : Scalar) (k2 : String)
    (h : k2 ≠ k) : Rec.get (Rec.set r k v) k2 = Rec.get r k2 := by
  unfold Rec.get Rec.set
  rw [lookupBy_upsertBy_other h]

/-! ## Claims -/

/-- **C7** Watermark read fallback: with no stored watermark object the
read yields exactly `now − 24 h`; with an unreadable/corrupt stored
watermark it yields exactly `now − 1 h`.  `get_watermark` is a total
function of the store state, so neither case raises to the caller. -/
theorem watermark_read_fallback (now : Int) :
    get_watermark now WStore.missing = now - 24 * 3600 ∧
    get_watermark now WStore.corrupt = now - 1 * 3600 := by
  constructor <;> norm_num [get_watermark]

/-- **C4, counterexample** The claim limits the affected rows to the
closed window `[today − D, today]`, but the DELETE predicate is only
`order_date >= today − D`: with `today = 0`, `D = 3`, a stored aggregate
row dated `5 > today` — outside `[−3, 0]` — is deleted by the run (the
result is empty), refuting "deletes only rows whose date falls within
[today − D, today]". -/
theorem delta_refresh_upper_bound_cex :
    refresh_daily_sales_by_region 0 3 []
      [{ order_date := 5, region := "US-East", order_count := 1,
         total_revenue := 10, avg_order_value := 10, unique_customers := 1,
         computed_at := "t0" }] "t1" = [] ∧
    ¬ ((5 : Int) ≤ 0) := by
  constructor
  · rfl
  · decide

/-- **C4, amended** Delta-refresh with window `D` only deletes and
reinserts rows with `order_date ≥ today − D` (no upper bound): every
aggregate row strictly older than `today − D` survives bit-for-bit (the
filter of the table to those rows is unchanged), and every reinserted
row has `order_date ≥ today − D`. -/
theorem delta_refresh_window_bound (today refreshDays : Int)
    (silver : List SilverOrderRow) (tbl : List AggRow) (nowTs : String) :
    (refresh_daily_sales_by_region today refreshDays silver tbl nowTs).filter
        (fun r => decide (r.order_date < today - refreshDays)) =
      tbl.filter (fun r => decide (r.order_date < today - refreshDays)) ∧
    (computeDailyAgg today refreshDays silver nowTs).all
        (fun r => decide (r.order_date ≥ today - refreshDays)) = true := by
  have hall : ∀ r ∈ computeDailyAgg today refreshDays silver nowTs,
      today - refreshDays ≤ r.order_date := by
    intro r hr
    unfold computeDailyAgg at hr
    rcases List.mem_map.mp hr with ⟨k, hk, rfl⟩
    rcases List.mem_map.mp (mem_distinctLeft.mp hk) with ⟨o, ho, rfl⟩
    have := (List.mem_filter.mp ho).2
    simp only [Bool.and_eq_true, decide_eq_true_eq] at this
    exact this.1
  constructor
  · unfold refresh_daily_sales_by_region
    rw [List.filter_append, List.filter_filter]
    have h2 : (computeDailyAgg today refreshDays silver nowTs).filter
        (fun r => decide (r.order_date < today - refreshDays)) = [] := by
      rw [List.filter_eq_nil_iff]
      intro r hr
      simpa using not_lt_of_le (hall r hr)
    rw [h2, List.append_nil]
    apply List.filter_congr
    intro r _
    by_cases hlt : r.order_date < today - refreshDays
    · simp [hlt, not_le_of_lt hlt]
    · simp [hlt]
  · rw [List.all_eq_true]
    intro r hr
    simpa using hall r hr

/-- **C6** Guaranteed merge cleanup: on every exit path of
`merge_to_iceberg` — unknown table, staging-put failure, temp-table
failure, DDL failure, MERGE failure, or success — both the temp-table
drop and the staging delete are attempted, and the returned outcome is
independent of the cleanup outcomes; the outcome is success exactly when
the table is known and all four body steps succeed. -/
theorem merge_cleanup_guaranteed (env : MergeEnv) (tname : String)
    (records : List Rec) (d1 d2 : Except String Unit) :
    MAct.dropTemp ∈ (merge_to_iceberg env tname records).2 ∧
    MAct.deleteStaging ∈ (merge_to_iceberg env tname records).2 ∧
    (merge_to_iceberg { env with dropRes := d1, deleteRes := d2 } tname records).1
      = (merge_to_iceberg env tname records).1 ∧
    ((merge_to_iceberg env tname records).1 = Except.ok () ↔
      (pkOf tname).isSome = true ∧ env.putRes = .ok () ∧
        env.createTempRes = .ok () ∧ env.ensureRes = .ok () ∧
        env.mergeRes = .ok ()) := by
  obtain ⟨p1, p2, p3, p4, p5, p6⟩ := env
  refine ⟨by simp [merge_to_iceberg], by simp [merge_to_iceberg], rfl, ?_⟩
  cases hp : pkOf tname with
  | none => simp [merge_to_iceberg, mergeBodySteps, hp]
  | some pk =>
    cases p1 <;> cases p2 <;> cases p3 <;> cases p4 <;>
      simp [merge_to_iceberg, mergeBodySteps, hp]

/-- A record the bronze loop skips (REMOVE, or no new image) normalizes
to nothing. -/
theorem normalize_dropped {nowIso : String} {r : StreamRecord}
    (h : r.eventName = "REMOVE" ∨ r.newImage = none) :
    normalizeStreamRecord nowIso r = none := by
  unfold normalizeStreamRecord
  rcases h with h | h
  · rw [if_pos h]
  · by_cases he : r.eventName = "REMOVE"
    · rw [if_pos he]
    · rw [if_neg he, h]

/-- **C5** Normalizer contract: each stream record yields at most one
normalized record (the batch is a `filterMap` of an `Option`-valued
per-record normalizer, so the batch never exceeds the input in length),
and records whose operation is REMOVE or that lack a new image
contribute nothing: removing them from the input leaves the output batch
unchanged. -/
theorem normalizer_contract (nowIso : String) (events : List StreamRecord) :
    (events.filterMap (normalizeStreamRecord nowIso)).length ≤ events.length ∧
    events.filterMap (normalizeStreamRecord nowIso) =
      (events.filter (fun r =>
        !(decide (r.eventName = "REMOVE") || r.newImage.isNone))).filterMap
        (normalizeStreamRecord nowIso) := by
  refine ⟨List.length_filterMap_le _ _, ?_⟩
  induction events with
  | nil => rfl
  | cons r events ih =>
    rw [List.filterMap_cons, List.filter_cons]
    by_cases hc : (!(decide (r.eventName = "REMOVE") || r.newImage.isNone)) = true
    · rw [if_pos hc, List.filterMap_cons]
      cases hn : normalizeStreamRecord nowIso r <;> rw [ih]
    · rw [if_neg hc]
      have hdrop : r.eventName = "REMOVE" ∨ r.newImage = none := by
        have hor : (decide (r.eventName = "REMOVE") || r.newImage.isNone) = true := by
          revert hc
          cases decide (r.eventName = "REMOVE") || r.newImage.isNone <;> simp
        rcases Bool.or_eq_true _ _ |>.mp hor with h | h
        · exact Or.inl (of_decide_eq_true h)
        · exact Or.inr (Option.isNone_iff_eq_none.mp h)
      rw [normalize_dropped hdrop, ih]

/-- **C10** Single-object write keyed by the first record's table: when at
least one record survives normalization, the bronze handler performs
exactly one S3 put, holding all surviving records, under a key whose
prefix interpolates the table name of the first surviving record — even
when the event mixes records of several source tables. -/
theorem bronze_single_write (nowIso : String) (env : BronzeEnv)
    (events : List StreamRecord) (r0 : Rec) (rest : List Rec)
    (h : events.filterMap (normalizeStreamRecord nowIso) = r0 :: rest) :
    bronzeHandler nowIso env events =
      [(bronzeKeyFor env (tableNameOf r0), r0 :: rest)] ∧
    bronzeKeyFor env (tableNameOf r0) =
      env.keyRoot ++ "/" ++ tableNameOf r0 ++ "/year=" ++ toString env.year ++
        "/month=" ++ padTwo env.month ++ "/day=" ++ padTwo env.day ++ "/" ++
        env.stamp ++ "_" ++ env.batchId ++ ".parquet" := by
  constructor
  · unfold bronzeHandler
    rw [h]
  · rfl

/-- Witness for C10: an event mixing an orders record and a products
record is written as one object under the orders table's prefix. -/
theorem bronze_single_write_witness :
    bronzeHandler "T0" bronzeEnvW [bronzeEv1, bronzeEv2] =
      [(bronzeKeyFor bronzeEnvW (tableNameOf bronzeRec1), bronzeRec1 :: [bronzeRec2])] :=
  (bronze_single_write "T0" bronzeEnvW [bronzeEv1, bronzeEv2] bronzeRec1 [bronzeRec2]
    (by decide)).1

/-- **C9** Watermark advances on empty runs: when the scan finds no new
bronze files, or the files found contain no records, the silver handler
still overwrites the watermark with the run-start time, returns success,
and performs no merge. -/
theorem empty_run_advances_watermark (now : Int) (nowIso : String)
    (st : WStore) (env : SilverEnv) :
    (scan_bronze_files env (get_watermark now st) = [] →
      silverHandler now nowIso st env = (.ok "No new files", WStore.valid now, [])) ∧
    (read_bronze_files env (scan_bronze_files env (get_watermark now st)) = [] →
      (silverHandler now nowIso st env).1.succeeded = true ∧
      (silverHandler now nowIso st env).2.1 = WStore.valid now ∧
      (silverHandler now nowIso st env).2.2 = []) := by
  constructor
  · intro h
    simp [silverHandler, h, save_watermark]
  · intro h
    by_cases h1 : (scan_bronze_files env (get_watermark now st)).isEmpty
    · simp [silverHandler, h1, save_watermark, RunRes.succeeded]
    · simp only [silverHandler, h1, if_false, Bool.false_eq_true, if_neg]
      rw [h]
      simp [save_watermark, RunRes.succeeded]

/-- Witness for C9: an environment with no bronze objects at all — the
run reports success, writes `valid now`, and merges nothing. -/
theorem empty_run_advances_watermark_witness :
    silverHandler 100 "T0" WStore.missing silverEnvEmptyW =
      (.ok "No new files", WStore.valid 100, []) :=
  (empty_run_advances_watermark 100 "T0" WStore.missing silverEnvEmptyW).1 rfl

/-- Every silver run either succeeds having overwritten the watermark
with the run start, or fails leaving the stored watermark untouched. -/
theorem silverHandler_store_cases (now : Int) (nowIso : String) (st : WStore)
    (env : SilverEnv) :
    ((silverHandler now nowIso st env).1.succeeded = true ∧
      (silverHandler now nowIso st env).2.1 = WStore.valid now) ∨
    ((silverHandler now nowIso st env).1.succeeded = false ∧
      (silverHandler now nowIso st env).2.1 = st) := by
  simp only [silverHandler, save_watermark]
  split
  · exact Or.inl ⟨rfl, rfl⟩
  · split
    · exact Or.inl ⟨rfl, rfl⟩
    · split
      · exact Or.inr ⟨rfl, rfl⟩
      · split
        · exact Or.inl ⟨rfl, rfl⟩
        · exact Or.inr ⟨rfl, rfl⟩

/-- **C1** Watermark monotonicity and failure atomicity: starting from a
stored watermark `w` no later than the run start `now`, a successful run
leaves the stored watermark at `valid now` (hence ≥ `w`), and a failed
run (transform error, or any merge failure/timeout surfacing through
`merge_to_iceberg`) leaves the stored watermark exactly `valid w`. -/
theorem watermark_monotone_atomic (now : Int) (nowIso : String) (w : Int)
    (env : SilverEnv) (hw : w ≤ now) :
    ((silverHandler now nowIso (WStore.valid w) env).1.succeeded = true →
      (silverHandler now nowIso (WStore.valid w) env).2.1 = WStore.valid now ∧
        w ≤ now) ∧
    ((silverHandler now nowIso (WStore.valid w) env).1.succeeded = false →
      (silverHandler now nowIso (WStore.valid w) env).2.1 = WStore.valid w) := by
  rcases silverHandler_store_cases now nowIso (WStore.valid w) env with ⟨hs, hst⟩ | ⟨hs, hst⟩
  · exact ⟨fun _ => ⟨hst, hw⟩, fun hc => absurd (hs.symm.trans hc) (by simp)⟩
  · exact ⟨fun hc => absurd (hs.symm.trans hc) (by simp), fun _ => hst⟩

/-- Witness for C1: a concrete empty-bronze run with `w = 50 ≤ 100 = now`
succeeds and stores `valid 100`. -/
theorem watermark_monotone_atomic_witness :
    (silverHandler 100 "T0" (WStore.valid 50) silverEnvEmptyW).2.1 =
      WStore.valid 100 ∧ (50 : Int) ≤ 100 :=
  (watermark_monotone_atomic 100 "T0" 50 silverEnvEmptyW (by norm_num)).1 rfl

theorem mem_of_getLast?_eq_some {α : Type} {l : List α} {w : α}
    (h : l.getLast? = some w) : w ∈ l := by
  induction l with
  | nil => simp at h
  | cons a l ih =>
    cases l with
    | nil => simp_all
    | cons b l =>
      rw [List.getLast?_cons_cons] at h
      exact List.mem_cons_of_mem _ (ih h)

/-- Every entry of the dedup dict built from keyed pairs carries its own
key. -/
theorem pairs_key_inv {κ α : Type} [DecidableEq κ] (f : α → κ) (xs : List α)
    (p : κ × α) (hp : p ∈ mergeBy Prod.fst [] (xs.map (fun x => (f x, x)))) :
    f p.2 = p.1 := by
  rcases mem_of_mem_mergeBy hp with h | h
  · cases h
  · rcases List.mem_map.mp h with ⟨x, hx, rfl⟩
    rfl

/-- In a duplicate-free keyed pair table whose entries carry their own
key, filtering the values by a key yields the looked-up value (or
nothing). -/
theorem filter_values_by_key {κ α : Type} [DecidableEq κ] (f : α → κ)
    (t : List (κ × α)) (k : κ) (hnd : (t.map Prod.fst).Nodup)
    (hinv : ∀ q ∈ t, f q.2 = q.1) :
    (t.map Prod.snd).filter (fun x => decide (f x = k)) =
      match lookupBy Prod.fst t k with
      | some q => [q.2]
      | none => [] := by
  induction t with
  | nil => rfl
  | cons q t ih =>
    obtain ⟨k0, a⟩ := q
    have hfa : f a = k0 := hinv (k0, a) (List.mem_cons_self _ _)
    have hndt : (t.map Prod.fst).Nodup := (List.nodup_cons.mp (by simpa using hnd)).2
    have hk0t : k0 ∉ t.map Prod.fst := (List.nodup_cons.mp (by simpa using hnd)).1
    have hinvt : ∀ q ∈ t, f q.2 = q.1 :=
      fun q hq => hinv q (List.mem_cons_of_mem _ hq)
    rw [List.map_cons]
    by_cases hk : k0 = k
    · subst hk
      rw [List.filter_cons_of_pos (by simpa using hfa)]
      have hlk : lookupBy Prod.fst ((k0, a) :: t) k0 = some (k0, a) := by
        unfold lookupBy
        rw [List.find?_cons_of_pos _ (by simp)]
      rw [hlk, ih hndt hinvt, (lookupBy_eq_none_iff Prod.fst t k0).mpr hk0t]
    · have hfak : ¬ (f a = k) := fun hc => hk (hfa ▸ hc)
      rw [List.filter_cons_of_neg (by simpa using hfak)]
      have hlk : lookupBy Prod.fst ((k0, a) :: t) k =
          lookupBy Prod.fst t k := by
        unfold lookupBy
        rw [List.find?_cons_of_neg _ (by simpa using hk)]
      rw [hlk, ih hndt hinvt]

/-- **C2** Dedup correctness: the deduplicated set staged and merged by
`merge_to_iceberg` (its step 1, `dedupRecords`) has pairwise-distinct
primary-key values, and for every key value `k` it contains exactly the
last input record carrying `k` in capture order (none when no input
record carries `k`). -/
theorem dedup_correct (pk : String) (records : List Rec) :
    ((dedupRecords pk records).map (keyfn pk)).Nodup ∧
    ∀ k, (dedupRecords pk records).filter (fun r => decide (keyfn pk r = k)) =
      ((records.filter (fun r => decide (keyfn pk r = k))).getLast?).toList := by
  have hkeys : (dedupRecords pk records).map (keyfn pk) =
      (mergeBy Prod.fst [] (records.map (fun r => (keyfn pk r, r)))).map Prod.fst := by
    unfold dedupRecords
    rw [List.map_map]
    exact List.map_congr_left (fun p hp => pairs_key_inv (keyfn pk) records p hp)
  have hnd : ((mergeBy Prod.fst []
      (records.map (fun r => (keyfn pk r, r)))).map Prod.fst).Nodup :=
    nodup_map_key_mergeBy (by simp)
  constructor
  · rw [hkeys]; exact hnd
  · intro k
    unfold dedupRecords
    rw [filter_values_by_key (keyfn pk) _ k hnd
      (fun q hq => pairs_key_inv (keyfn pk) records q hq)]
    rw [lookupBy_mergeBy]
    have hfp : (records.map (fun r => (keyfn pk r, r))).filter
        (fun p => decide (p.1 = k)) =
        (records.filter (fun r => decide (keyfn pk r = k))).map
          (fun r => (keyfn pk r, r)) := by
      rw [List.filter_map]
      rfl
    rw [hfp, List.getLast?_map]
    cases hgl : (records.filter (fun r => decide (keyfn pk r = k))).getLast? with
    | none => rfl
    | some w => rfl

/-- A successful transform step never loses an order row already
accumulated. -/
theorem transformStep_orders_mono {store : List (Scalar × Rec)} {nowIso : String}
    {acc acc2 : SilverData} {r : Rec}
    (h : transformStep store nowIso acc r = some acc2) :
    ∀ x ∈ acc.orders, x ∈ acc2.orders := by
  unfold transformStep transformClassify at h
  split at h
  · split_ifs at h with h1 h2 h3
    · rcases Option.map_eq_some'.mp h with ⟨o, _, rfl⟩
      intro x hx
      exact List.mem_append_left _ hx
    · rcases Option.map_eq_some'.mp h with ⟨p, _, rfl⟩
      intro x hx
      exact hx
    · obtain rfl := Option.some.inj h
      intro x hx
      exact hx
    · obtain rfl := Option.some.inj h
      intro x hx
      exact hx
  · exact absurd h (by simp)

/-- A whole-batch transform success is a success on every prefix, and
accumulated order rows survive to the final result. -/
theorem transform_fold_orders_mono (store : List (Scalar × Rec)) (nowIso : String)
    (b : List Rec) (acc d : SilverData)
    (h : List.foldlM (transformStep store nowIso) acc b = some d) :
    ∀ x ∈ acc.orders, x ∈ d.orders := by
  induction b generalizing acc with
  | nil =>
    obtain rfl : acc = d := by simpa using h
    exact fun x hx => hx
  | cons r b ih =>
    rw [List.foldlM_cons] at h
    cases hstep : transformStep store nowIso acc r with
    | none => rw [hstep] at h; simp at h
    | some acc1 =>
      rw [hstep] at h
      simp only [Option.pure_def, Option.bind_eq_bind, Option.some_bind] at h
      exact fun x hx => ih acc1 h x (transformStep_orders_mono hstep x hx)

/-- Splitting a successful transform fold at one record of the batch. -/
theorem transform_fold_split (store : List (Scalar × Rec)) (nowIso : String)
    (l1 l2 : List Rec) (r : Rec) (acc d : SilverData)
    (h : List.foldlM (transformStep store nowIso) acc (l1 ++ r :: l2) = some d) :
    ∃ a1 a2, List.foldlM (transformStep store nowIso) acc l1 = some a1 ∧
      transformStep store nowIso a1 r = some a2 ∧
      List.foldlM (transformStep store nowIso) a2 l2 = some d := by
  rw [List.foldlM_append] at h
  cases h1 : List.foldlM (transformStep store nowIso) acc l1 with
  | none => rw [h1] at h; simp at h
  | some a1 =>
    rw [h1] at h
    simp only [Option.pure_def, Option.bind_eq_bind, Option.some_bind] at h
    rw [List.foldlM_cons] at h
    cases h2 : transformStep store nowIso a1 r with
    | none => rw [h2] at h; simp at h
    | some a2 =>
      rw [h2] at h
      simp only [Option.pure_def, Option.bind_eq_bind, Option.some_bind] at h
      exact ⟨a1, a2, rfl, h2, h⟩

/-- On a reference-store miss (or a falsy customer id) the enrichment
returns the order unchanged. -/
theorem enrich_miss {store : List (Scalar × Rec)} {r : Rec}
    (hmiss : custLookup store ((Rec.get r "CustomerID").getD .null) = none) :
    enrich_order_data store r = r := by
  unfold enrich_order_data
  by_cases hf : scalarFalsy (Rec.get r "CustomerID") = true
  · rw [if_pos hf]
  · rw [if_neg hf, hmiss]

/-- A transform-loop iteration on a record routed to the orders branch. -/
theorem transformStep_orders_branch (store : List (Scalar × Rec))
    (nowIso : String) (acc : SilverData) (r : Rec) (tbl : String) (ev : Scalar)
    (htbl : Rec.get r "_table_name" = some (.str tbl))
    (hev : Rec.get r "_event_timestamp" = some ev)
    (hord : strContains (pyLower tbl) "orders" = true) :
    transformStep store nowIso acc r =
      (mkOrderRow store nowIso ev r).map
        (fun o => { acc with orders := acc.orders ++ [o] }) := by
  unfold transformStep
  rw [htbl, hev]
  show transformClassify store nowIso acc r tbl ev =
    (mkOrderRow store nowIso ev r).map
      (fun o => { acc with orders := acc.orders ++ [o] })
  unfold transformClassify
  rw [if_pos hord]

theorem orderRow_get_region (e : Rec) (ev : Scalar) (amt : Rat) (nowIso : String) :
    Rec.get (orderRow e ev amt nowIso) "customer_region" =
      some (Rec.getD e "customer_region" (.str "")) := rfl

theorem orderRow_get_name (e : Rec) (ev : Scalar) (amt : Rat) (nowIso : String) :
    Rec.get (orderRow e ev amt nowIso) "customer_name" =
      some (Rec.getD e "customer_name" (.str "")) := rfl

/-- **C8** Enrichment-miss default: an order record of a successfully
transformed batch whose customer key is absent from the reference store
(and which does not itself carry enrichment fields, as bronze order
records never do) is transformed with `customer_region = ""` and
`customer_name = ""`, and the transformed row is in the order set handed
to the merge stage rather than dropped. -/
theorem enrichment_miss_default (store : List (Scalar × Rec)) (nowIso : String)
    (bronze : List Rec) (d : SilverData) (r : Rec) (tbl : String) (ev : Scalar)
    (ht : transform_records store nowIso bronze = some d)
    (hr : r ∈ bronze)
    (htbl : Rec.get r "_table_name" = some (.str tbl))
    (hord : strContains (pyLower tbl) "orders" = true)
    (hev : Rec.get r "_event_timestamp" = some ev)
    (hmiss : custLookup store ((Rec.get r "CustomerID").getD .null) = none)
    (hf1 : Rec.get r "customer_name" = none)
    (hf2 : Rec.get r "customer_region" = none) :
    ∃ o ∈ d.orders, mkOrderRow store nowIso ev r = some o ∧
      Rec.get o "customer_region" = some (.str "") ∧
      Rec.get o "customer_name" = some (.str "") := by
  obtain ⟨l1, l2, rfl⟩ := List.append_of_mem hr
  obtain ⟨a1, a2, h1, h2, h3⟩ :=
    transform_fold_split store nowIso l1 l2 r ⟨[], [], []⟩ d ht
  rw [transformStep_orders_branch store nowIso a1 r tbl ev htbl hev hord] at h2
  rcases Option.map_eq_some'.mp h2 with ⟨o, ho, rfl⟩
  have hmem : o ∈ d.orders := by
    refine transform_fold_orders_mono store nowIso l2 _ d h3 o ?_
    exact List.mem_append_right _ (List.mem_singleton.mpr rfl)
  refine ⟨o, hmem, ho, ?_, ?_⟩
  · unfold mkOrderRow at ho
    rw [enrich_miss hmiss] at ho
    rcases Option.map_eq_some'.mp ho with ⟨amt, _, rfl⟩
    rw [orderRow_get_region]
    unfold Rec.getD
    rw [hf2]
    rfl
  · unfold mkOrderRow at ho
    rw [enrich_miss hmiss] at ho
    rcases Option.map_eq_some'.mp ho with ⟨amt, _, rfl⟩
    rw [orderRow_get_name]
    unfold Rec.getD
    rw [hf1]
    rfl

/-- The pk column of a silver row is untouched by erasing the stamp. -/
theorem keyfn_stripRec (pk : String) (hpk : pk ≠ "processing_timestamp")
    (r : Rec) : keyfn pk (stripRec r) = keyfn pk r :=
  rec_get_set_ne r "processing_timestamp" (.str "") pk hpk

theorem strip_orderRow (e : Rec) (ev : Scalar) (amt : Rat) (nowIso : String) :
    stripRec (orderRow e ev amt nowIso) = orderRow e ev amt "" := rfl

theorem strip_productRow (r : Rec) (ev : Scalar) (price : Rat) (stock : Int)
    (nowIso : String) :
    stripRec (productRow r ev price stock nowIso) = productRow r ev price stock "" := rfl

theorem strip_customerRow (r : Rec) (ev : Scalar) (nowIso : String) :
    stripRec (customerRow r ev nowIso) = customerRow r ev "" := rfl

/-- A key-preserving row map commutes with the keyed value-dedup. -/
theorem map_snd_mergeBy_pairs {κ α : Type} [DecidableEq κ] (f : α → κ)
    (g : α → α) (hg : ∀ a, f (g a) = f a) (xs : List α) :
    ((mergeBy Prod.fst [] (xs.map (fun x => (f x, x)))).map Prod.snd).map g =
      (mergeBy Prod.fst [] ((xs.map g).map (fun x => (f x, x)))).map Prod.snd := by
  have hpairs : (xs.map g).map (fun x => (f x, x)) =
      (xs.map (fun x => (f x, x))).map (fun p => (p.1, g p.2)) := by
    rw [List.map_map, List.map_map]
    exact List.map_congr_left (fun x _ => by simp [Function.comp, hg x])
  have hmm := @map_mergeBy κ (κ × α) _ Prod.fst (fun p => (p.1, g p.2))
    (fun p => rfl) [] (xs.map (fun x => (f x, x)))
  have hmm2 : (mergeBy Prod.fst [] (xs.map (fun x => (f x, x)))).map
      (fun p => (p.1, g p.2)) =
      mergeBy Prod.fst []
        ((xs.map (fun x => (f x, x))).map (fun p => (p.1, g p.2))) := by
    simpa using hmm
  rw [hpairs, ← hmm2, List.map_map, List.map_map]
  rfl

/-- Erasing stamps commutes with the in-batch dedup. -/
theorem dedup_strip (pk : String) (hpk : pk ≠ "processing_timestamp")
    (S : List Rec) :
    (dedupRecords pk S).map stripRec = dedupRecords pk (S.map stripRec) := by
  unfold dedupRecords
  exact map_snd_mergeBy_pairs (keyfn pk) stripRec (keyfn_stripRec pk hpk) S

/-- Erasing stamps commutes with the staged MERGE. -/
theorem applyMerge_strip (pk : String) (hpk : pk ≠ "processing_timestamp")
    (T S : List Rec) :
    (applyMergeData pk T S).map stripRec =
      applyMergeData pk (T.map stripRec) (S.map stripRec) := by
  unfold applyMergeData
  rw [map_mergeBy stripRec (keyfn_stripRec pk hpk) T (dedupRecords pk S),
    dedup_strip pk hpk S]

/-- Up to stamps, one transform-loop iteration does not depend on the
run's `processing_timestamp` value. -/
theorem transformStep_strip (store : List (Scalar × Rec)) (t1 t2 : String)
    (a1 a2 : SilverData) (r : Rec) (ha : stripData a1 = stripData a2) :
    (transformStep store t1 a1 r).map stripData =
      (transformStep store t2 a2 r).map stripData := by
  have hou : a1.orders.map stripRec = a2.orders.map stripRec :=
    congrArg SilverData.orders ha
  have hpu : a1.products.map stripRec = a2.products.map stripRec :=
    congrArg SilverData.products ha
  have hcu : a1.customers.map stripRec = a2.customers.map stripRec :=
    congrArg SilverData.customers ha
  unfold transformStep
  cases hg1 : Rec.get r "_table_name" with
  | none => rfl
  | some s =>
    cases s with
    | str tbl =>
      cases hg2 : Rec.get r "_event_timestamp" with
      | none => rfl
      | some ev =>
        show (transformClassify store t1 a1 r tbl ev).map stripData =
          (transformClassify store t2 a2 r tbl ev).map stripData
        unfold transformClassify
        by_cases ho : strContains (pyLower tbl) "orders" = true
        · rw [if_pos ho, if_pos ho]
          unfold mkOrderRow
          cases hpf : pyFloat (Rec.getD (enrich_order_data store r) "TotalAmount" (.num 0)) with
          | none => rfl
          | some amt =>
            simp only [Option.map_some', Option.map_map, Function.comp]
            apply congrArg
            unfold stripData
            simp only [List.map_append, List.map_cons, List.map_nil,
              strip_orderRow, hou, hpu, hcu]
        · rw [if_neg ho, if_neg ho]
          by_cases hp : strContains (pyLower tbl) "products" = true
          · rw [if_pos hp, if_pos hp]
            unfold mkProductRow
            cases hpf : pyFloat (Rec.getD r "Price" (.num 0)) with
            | none => rfl
            | some price =>
              simp only [Option.some_bind]
              cases hpi : pyInt (Rec.getD r "StockLevel" (.num 0)) with
              | none => rfl
              | some stock =>
                simp only [Option.map_some', Option.map_map, Function.comp]
                apply congrArg
                unfold stripData
                simp only [List.map_append, List.map_cons, List.map_nil,
                  strip_productRow, hou, hpu, hcu]
          · rw [if_neg hp, if_neg hp]
            by_cases hc : strContains (pyLower tbl) "customers" = true
            · rw [if_pos hc, if_pos hc]
              simp only [Option.map_some']
              apply congrArg
              unfold stripData
              simp only [List.map_append, List.map_cons, List.map_nil,
                strip_customerRow, hou, hpu, hcu]
            · rw [if_neg hc, if_neg hc]
              simp only [Option.map_some']
              exact congrArg some ha
    | num v => rfl
    | boolv v => rfl
    | intv v => rfl
    | arr es => rfl
    | null => rfl

/-- Up to stamps, the whole transform does not depend on the run's
`processing_timestamp` value (and raises on one run iff on the other). -/
theorem transform_fold_strip (store : List (Scalar × Rec)) (t1 t2 : String)
    (b : List Rec) (a1 a2 : SilverData) (ha : stripData a1 = stripData a2) :
    (List.foldlM (transformStep store t1) a1 b).map stripData =
      (List.foldlM (transformStep store t2) a2 b).map stripData := by
  induction b generalizing a1 a2 with
  | nil => simpa using congrArg some ha
  | cons r b ih =>
    rw [List.foldlM_cons, List.foldlM_cons]
    have hstep := transformStep_strip store t1 t2 a1 a2 r ha
    cases h1 : transformStep store t1 a1 r with
    | none =>
      rw [h1] at hstep
      cases h2 : transformStep store t2 a2 r with
      | none =>
        simp only [Option.pure_def, Option.bind_eq_bind, Option.none_bind]
      | some x2 => rw [h2] at hstep; simp at hstep
    | some x1 =>
      rw [h1] at hstep
      cases h2 : transformStep store t2 a2 r with
      | none => rw [h2] at hstep; simp at hstep
      | some x2 =>
        rw [h2] at hstep
        simp only [Option.map_some'] at hstep
        simp only [Option.pure_def, Option.bind_eq_bind, Option.some_bind]
        exact ih x1 x2 (Option.some.inj hstep)

theorem transform_records_strip (store : List (Scalar × Rec)) (t1 t2 : String)
    (b : List Rec) :
    (transform_records store t1 b).map stripData =
      (transform_records store t2 b).map stripData :=
  transform_fold_strip store t1 t2 b ⟨[], [], []⟩ ⟨[], [], []⟩ rfl

/-- Erasing stamps preserves a table's pk column sequence. -/
theorem map_keyfn_strip (pk : String) (hpk : pk ≠ "processing_timestamp")
    (T : List Rec) :
    (T.map stripRec).map (keyfn pk) = T.map (keyfn pk) := by
  rw [List.map_map]
  exact List.map_congr_left (fun r _ => by
    simp [Function.comp, keyfn_stripRec pk hpk r])

/-- Per-table core of pipeline idempotence: merging the same batch (up to
stamps) a second time does not change the table, up to stamps. -/
theorem applyMerge_twice_strip (pk : String) (hpk : pk ≠ "processing_timestamp")
    (X : List Rec) (S1 S2 S3 : List Rec)
    (hnd : (X.map (keyfn pk)).Nodup)
    (e12 : S1.map stripRec = S2.map stripRec)
    (e13 : S1.map stripRec = S3.map stripRec) :
    (applyMergeData pk (applyMergeData pk X S1) S2).map stripRec =
      (applyMergeData pk X S3).map stripRec := by
  rw [applyMerge_strip pk hpk, applyMerge_strip pk hpk, applyMerge_strip pk hpk,
    ← e12, ← e13]
  unfold applyMergeData
  exact mergeBy_idem (dedupRecords pk (S1.map stripRec))
    (by rw [map_keyfn_strip pk hpk]; exact hnd)

/-- **C3** Pipeline idempotence: over a fixed set of bronze change
records and a fixed reference-customer snapshot, running the
stage-transform-merge pass twice (at run stamps `t1` then `t2`) leaves
every target entity table in the same state as running it once (at any
stamp `t3`), up to the `processing_timestamp` fields; the target tables
are assumed to have duplicate-free primary keys, the invariant every
merge maintains. -/
theorem pipeline_idempotent (store : List (Scalar × Rec)) (t1 t2 t3 : String)
    (bronze : List Rec) (T : Targets)
    (h1 : (T.orders.map (keyfn "orderid")).Nodup)
    (h2 : (T.products.map (keyfn "productid")).Nodup)
    (h3 : (T.customers.map (keyfn "customerid")).Nodup) :
    stripTargets (silverPipeline store t2 bronze (silverPipeline store t1 bronze T)) =
      stripTargets (silverPipeline store t3 bronze T) := by
  have hs12 := transform_records_strip store t1 t2 bronze
  have hs13 := transform_records_strip store t1 t3 bronze
  unfold silverPipeline
  cases htr1 : transform_records store t1 bronze with
  | none =>
    rw [htr1] at hs12 hs13
    cases htr2 : transform_records store t2 bronze with
    | none =>
      cases htr3 : transform_records store t3 bronze with
      | none => rfl
      | some d3 => rw [htr3] at hs13; simp at hs13
    | some d2 => rw [htr2] at hs12; simp at hs12
  | some d1 =>
    rw [htr1] at hs12 hs13
    cases htr2 : transform_records store t2 bronze with
    | none => rw [htr2] at hs12; simp at hs12
    | some d2 =>
      cases htr3 : transform_records store t3 bronze with
      | none => rw [htr3] at hs13; simp at hs13
      | some d3 =>
        rw [htr2] at hs12
        rw [htr3] at hs13
        simp only [Option.map_some'] at hs12 hs13
        have hd12 := Option.some.inj hs12
        have hd13 := Option.some.inj hs13
        unfold stripTargets
        simp only [Targets.mk.injEq]
        refine ⟨?_, ?_, ?_⟩
        · exact applyMerge_twice_strip "orderid" (by decide) T.orders
            d1.orders d2.orders d3.orders h1
            (congrArg SilverData.orders hd12) (congrArg SilverData.orders hd13)
        · exact applyMerge_twice_strip "productid" (by decide) T.products
            d1.products d2.products d3.products h2
            (congrArg SilverData.products hd12) (congrArg SilverData.products hd13)
        · exact applyMerge_twice_strip "customerid" (by decide) T.customers
            d1.customers d2.customers d3.customers h3
            (congrArg SilverData.customers hd12) (congrArg SilverData.customers hd13)

/-- Witness for C3: a concrete one-record batch over a target table
already holding one row, with duplicate-free keys. -/
theorem pipeline_idempotent_witness :
    stripTargets (silverPipeline c8Store "T2" [c8Order]
        (silverPipeline c8Store "T1" [c8Order] (Targets.mk [c8Row] [] []))) =
      stripTargets (silverPipeline c8Store "T3" [c8Order] (Targets.mk [c8Row] [] [])) :=
  pipeline_idempotent c8Store "T1" "T2" "T3" [c8Order] (Targets.mk [c8Row] [] [])
    (by decide) (by decide) (by decide)

/-- Witness for C8: customer `C1` is absent from `c8Store`, yet the
transformed row — with empty region and name — is in the merge input. -/
theorem enrichment_miss_default_witness :
    ∃ o ∈ (SilverData.mk [c8Row] [] []).orders,
      mkOrderRow c8Store "T0" (.str "E1") c8Order = some o ∧
      Rec.get o "customer_region" = some (.str "") ∧
      Rec.get o "customer_name" = some (.str "") :=
  enrichment_miss_default c8Store "T0" [c8Order] (SilverData.mk [c8Row] [] [])
    c8Order "OrdersTable" (.str "E1") (by decide) (by decide) (by decide)
    (by decide) (by decide) (by decide) (by decide) (by decide)

end DynamoPipe
